import Mathlib

/-!
# A verification of the `hashset` crate

Shallow embedding of `src/hashset/src/hashset.rs` and `src/hashset/src/iter.rs`.

The Rust code implements a separate-chaining hash set `HashSet<T>` with a
`Vec<Vec<T>>` bucket array and a `usize` element count.  We model buckets as
`List (List T)` and the count as `Nat`.  Rust's `DefaultHasher` is an opaque
deterministic function from values to 64-bit words; we model it as an explicit
parameter `hash : T → Nat` (`hasher.finish() as usize`), and every index
computation `(hasher.finish() as usize) % self.buckets.len()` becomes
`hash v % buckets.length`.  Equality on `T` (Rust's `Eq`) is modelled by
`DecidableEq T`; Rust's requirement that equal values hash equal holds by
congruence.  The `Borrow<Q>` generality of `contains`/`remove` is instantiated
at `Q = T` (the compatible-query requirement makes the query behave exactly
like the element it equals).

Out-of-bounds indexing panics in Rust; in the embedding, list reads use `getD`
and writes use `List.set` (no-op out of range), and the in-bounds facts are
proved separately (claim C8).
-/

namespace RustHashSet

/-- `pub struct HashSet<T> { buckets: Vec<Vec<T>>, size: usize }`. -/
structure HashSet (T : Type) where
  buckets : List (List T)
  size : Nat
  deriving DecidableEq, Repr

/-- `fn create_buckets<T>(size: usize) -> Vec<Vec<T>>`: `size` empty buckets. -/
def create_buckets (T : Type) (size : Nat) : List (List T) :=
  List.replicate size []

variable {T : Type}

/-- `HashSet::new()`: 16 empty buckets, size 0. -/
def HashSet.new (T : Type) : HashSet T :=
  { buckets := create_buckets T 16, size := 0 }

/-- The index computation `(hasher.finish() as usize) % self.buckets.len()`
used by `hash`, `contains`, `remove`. -/
def bucketIdx (hash : T → Nat) (s : HashSet T) (value : T) : Nat :=
  hash value % s.buckets.length

/-- Append `value` to bucket `i` (the effect of `self.buckets[i].push(value)`). -/
def pushAt (bs : List (List T)) (i : Nat) (value : T) : List (List T) :=
  bs.set i ((bs.getD i []).concat value)

/-- The rehash loop of `resize`: push each element of `values` (all current
elements, walked buckets-in-array-order, each bucket front to back) into the
bucket of `new_buckets` at its hash modulo `new_capacity`. -/
def rehashAll (hash : T → Nat) (new_capacity : Nat) (values : List T)
    (new_buckets : List (List T)) : List (List T) :=
  values.foldl
    (fun new_buckets value => pushAt new_buckets (hash value % new_capacity) value)
    new_buckets

/-- `HashSet::resize()`: double the capacity and re-push every element into a
fresh bucket array. -/
def HashSet.resize (hash : T → Nat) (s : HashSet T) : HashSet T :=
  let new_capacity := s.buckets.length * 2
  { buckets := rehashAll hash new_capacity s.buckets.flatten (create_buckets T new_capacity),
    size := s.size }

/-- `HashSet::insert(value) -> bool`, returning the updated set and the Rust
return value.  The growth trigger is checked (and resize performed) before
the duplicate scan, exactly as in the source. -/
def HashSet.insert [DecidableEq T] (hash : T → Nat) (s : HashSet T) (value : T) : HashSet T × Bool :=
  let s := if (s.size + 1) * 4 > s.buckets.length * 3 then s.resize hash else s
  let index := bucketIdx hash s value
  let bucket := s.buckets.getD index []
  if bucket.any (· == value) then (s, false)
  else ({ buckets := pushAt s.buckets index value, size := s.size + 1 }, true)

/-- `HashSet::contains(value) -> bool`. -/
def HashSet.contains [DecidableEq T] (hash : T → Nat) (s : HashSet T) (value : T) : Bool :=
  (s.buckets.getD (bucketIdx hash s value) []).any (· == value)

/-- `bucket.iter().position(|v| v.borrow() == value)`. -/
def position (p : T → Bool) : List T → Option Nat
  | [] => none
  | v :: rest => if p v then some 0 else (position p rest).map (· + 1)

/-- `HashSet::remove(value) -> bool`: find the first match in the target
bucket; if found, `Vec::remove` it (shift-remove at that position) and
decrement `size` (`usize` subtraction: truncated at 0 in the model, and the
underflow-freedom is proved separately). -/
def HashSet.remove [DecidableEq T] (hash : T → Nat) (s : HashSet T) (value : T) : HashSet T × Bool :=
  let index := bucketIdx hash s value
  let bucket := s.buckets.getD index []
  match position (· == value) bucket with
  | some pos =>
      ({ buckets := s.buckets.set index (bucket.eraseIdx pos), size := s.size - 1 }, true)
  | none => (s, false)

/-- `HashSet::len()`. -/
def HashSet.len (s : HashSet T) : Nat := s.size

/-- `HashSet::is_empty()`. -/
def HashSet.is_empty (s : HashSet T) : Bool := s.size == 0

/-- `HashSet::capacity()`. -/
def HashSet.capacity (s : HashSet T) : Nat := s.buckets.length

/-- `HashSet::clear()`: clear every bucket, set `size` to 0. -/
def HashSet.clear (s : HashSet T) : HashSet T :=
  { buckets := s.buckets.map (fun _ => []), size := 0 }

/-- `FromIterator for HashSet`: start from `new` and insert each item. -/
def HashSet.from_iter [DecidableEq T] (hash : T → Nat) (l : List T) : HashSet T :=
  l.foldl (fun s item => (s.insert hash item).1) (HashSet.new T)

/-- The iterator state of `iter.rs`: the not-yet-visited buckets and the
remainder of the current bucket. -/
structure Iter (T : Type) where
  bucket_iter : List (List T)
  current_bucket : Option (List T)
  deriving DecidableEq, Repr

/-- The loop body of `Iterator::next` for `Iter`: yield from the current
bucket if it still has an item, otherwise advance to the next bucket and
loop, returning `none` when the bucket iterator is exhausted. -/
def nextAux : List (List T) → Option (List T) → Option (T × Iter T)
  | bs, some (v :: rest) => some (v, ⟨bs, some rest⟩)
  | b :: bs, some [] => nextAux bs (some b)
  | b :: bs, none => nextAux bs (some b)
  | [], some [] => none
  | [], none => none

/-- `Iterator::next` on the iterator state. -/
def Iter.next (it : Iter T) : Option (T × Iter T) :=
  nextAux it.bucket_iter it.current_bucket

/-- `HashSet::iter()`: pull the first bucket (if any) into `current_bucket`. -/
def HashSet.iter (s : HashSet T) : Iter T :=
  match s.buckets with
  | [] => ⟨[], none⟩
  | b :: rest => ⟨rest, some b⟩

/-- Number of steps the iterator can still take (for termination). -/
def Iter.weight (it : Iter T) : Nat :=
  it.bucket_iter.length + (it.bucket_iter.map List.length).sum +
    (match it.current_bucket with
     | some c => c.length
     | none => 0)

/-- Collect the iterator: repeatedly call `next` until it returns `none`
(the caller-side traversal, e.g. `set.iter().copied().collect()`). -/
def Iter.toList (it : Iter T) : List T :=
  match h : it.next with
  | some (v, it') => v :: it'.toList
  | none => []
termination_by it.weight
decreasing_by
  have key : ∀ (bs : List (List T)) (cur : Option (List T)) (w : T) (j : Iter T),
      nextAux bs cur = some (w, j) → j.weight < Iter.weight ⟨bs, cur⟩ := by
    intro bs
    induction bs with
    | nil =>
        intro cur w j hw
        rcases cur with _ | ⟨_ | ⟨v₀, rest⟩⟩
        · simp [nextAux] at hw
        · simp [nextAux] at hw
        · simp only [nextAux, Option.some.injEq, Prod.mk.injEq] at hw
          obtain ⟨rfl, rfl⟩ := hw
          simp [Iter.weight]
    | cons b bs ih =>
        intro cur w j hw
        rcases cur with _ | ⟨_ | ⟨v₀, rest⟩⟩
        · simp only [nextAux] at hw
          have := ih (some b) w j hw
          simp only [Iter.weight, List.length_cons, List.map_cons, List.sum_cons] at *
          omega
        · simp only [nextAux] at hw
          have := ih (some b) w j hw
          simp only [Iter.weight, List.length_cons, List.map_cons, List.sum_cons,
            List.length_nil] at *
          omega
        · simp only [nextAux, Option.some.injEq, Prod.mk.injEq] at hw
          obtain ⟨rfl, rfl⟩ := hw
          simp [Iter.weight]
  exact key it.bucket_iter it.current_bucket v it' h

/-- The well-formedness invariant of a table: a positive bucket count, every
element sitting in the bucket selected by its hash modulo the capacity, no
duplicate element anywhere, and `size` counting the stored elements. -/
def HashSet.Inv (hash : T → Nat) (s : HashSet T) : Prop :=
  0 < s.buckets.length ∧
  (∀ i, i < s.buckets.length → ∀ v ∈ s.buckets.getD i [], hash v % s.buckets.length = i) ∧
  s.buckets.flatten.Nodup ∧
  s.size = s.buckets.flatten.length

instance {U : Type} [DecidableEq U] (hash : U → Nat) (s : HashSet U) :
    Decidable (s.Inv hash) := by
  unfold HashSet.Inv
  infer_instance

/-- The states produced by the public mutating API starting from `new`. -/
inductive Reachable [DecidableEq T] (hash : T → Nat) : HashSet T → Prop
  | new : Reachable hash (HashSet.new T)
  | insert (s : HashSet T) (v : T) :
      Reachable hash s → Reachable hash (s.insert hash v).1
  | remove (s : HashSet T) (v : T) :
      Reachable hash s → Reachable hash (s.remove hash v).1
  | clear (s : HashSet T) :
      Reachable hash s → Reachable hash s.clear

/-! ## List-level helper lemmas -/

theorem getD_set_self (bs : List (List T)) (i : Nat) (b : List T) (h : i < bs.length) :
    (bs.set i b).getD i [] = b := by
  simp [List.getD_eq_getElem?_getD, List.getElem?_set_self h]

theorem getD_set_ne (bs : List (List T)) (i j : Nat) (b : List T) (h : i ≠ j) :
    (bs.set i b).getD j [] = bs.getD j [] := by
  simp [List.getD_eq_getElem?_getD, List.getElem?_set_ne h]

theorem getD_replicate_nil (n i : Nat) :
    (List.replicate n ([] : List T)).getD i [] = [] := by
  simp only [List.getD_eq_getElem?_getD, List.getElem?_replicate]
  split <;> rfl

theorem lt_length_of_getD_ne_nil {bs : List (List T)} {i : Nat}
    (h : bs.getD i [] ≠ []) : i < bs.length := by
  by_contra hlt
  apply h
  rw [List.getD_eq_getElem?_getD, List.getElem?_eq_none (by omega)]
  rfl

theorem mem_getD_flatten {bs : List (List T)} {i : Nat} {v : T}
    (h : v ∈ bs.getD i []) : v ∈ bs.flatten := by
  have hi : i < bs.length := lt_length_of_getD_ne_nil (fun he => by rw [he] at h; simp at h)
  refine List.mem_flatten.2 ⟨bs.getD i [], ?_, h⟩
  rw [List.getD_eq_getElem?_getD, List.getElem?_eq_getElem hi]
  exact List.getElem_mem hi

theorem exists_getD_of_mem_flatten {bs : List (List T)} {v : T}
    (h : v ∈ bs.flatten) : ∃ i, i < bs.length ∧ v ∈ bs.getD i [] := by
  obtain ⟨b, hb, hvb⟩ := List.mem_flatten.1 h
  obtain ⟨i, hi, rfl⟩ := List.mem_iff_getElem.1 hb
  exact ⟨i, hi, by simpa [List.getD_eq_getElem?_getD, List.getElem?_eq_getElem hi] using hvb⟩

theorem pushAt_length (bs : List (List T)) (i : Nat) (v : T) :
    (pushAt bs i v).length = bs.length := by
  simp [pushAt]

theorem getD_pushAt_self (bs : List (List T)) (i : Nat) (v : T) (h : i < bs.length) :
    (pushAt bs i v).getD i [] = (bs.getD i []).concat v :=
  getD_set_self bs i _ h

theorem getD_pushAt_ne (bs : List (List T)) (i j : Nat) (v : T) (h : i ≠ j) :
    (pushAt bs i v).getD j [] = bs.getD j [] :=
  getD_set_ne bs i j _ h

theorem flatten_pushAt_perm (bs : List (List T)) (i : Nat) (v : T) (h : i < bs.length) :
    List.Perm (pushAt bs i v).flatten (v :: bs.flatten) := by
  induction bs generalizing i with
  | nil => simp at h
  | cons b bs ih =>
      cases i with
      | zero =>
          simp only [pushAt, List.getD_cons_zero, List.set_cons_zero, List.flatten_cons,
            List.concat_eq_append, List.append_assoc, List.singleton_append]
          exact List.perm_middle
      | succ i =>
          simp only [pushAt, List.getD_cons_succ, List.set_cons_succ, List.flatten_cons]
          exact (List.Perm.append_left b (ih i (by simpa using h))).trans List.perm_middle

theorem flatten_set_sublist (bs : List (List T)) (i : Nat) (b : List T)
    (h : List.Sublist b (bs.getD i [])) :
    List.Sublist (bs.set i b).flatten bs.flatten := by
  induction bs generalizing i with
  | nil => simp
  | cons hd bs ih =>
      cases i with
      | zero =>
          simp only [List.set_cons_zero, List.flatten_cons]
          exact (h.append_right _).trans (by simp [List.getD_cons_zero])
      | succ i =>
          simp only [List.set_cons_succ, List.flatten_cons]
          exact (ih i (by simpa using h)).append_left hd

theorem flatten_set_length (bs : List (List T)) (i : Nat) (b : List T) (h : i < bs.length) :
    (bs.set i b).flatten.length + (bs.getD i []).length = bs.flatten.length + b.length := by
  induction bs generalizing i with
  | nil => simp at h
  | cons hd bs ih =>
      cases i with
      | zero => simp [List.getD_cons_zero]; omega
      | succ i =>
          have := ih i (by simpa using h)
          simp only [List.set_cons_succ, List.flatten_cons, List.getD_cons_succ,
            List.length_append] at *
          omega

/-! ## `position` (Rust `Iterator::position`) lemmas -/

theorem position_eq_none_iff (p : T → Bool) (l : List T) :
    position p l = none ↔ ∀ x ∈ l, ¬ p x := by
  induction l with
  | nil => simp [position]
  | cons v rest ih =>
      by_cases hv : p v
      · simp [position, hv]
      · simp [position, hv, Option.map_eq_none', ih]

theorem position_some (p : T → Bool) (l : List T) (i : Nat)
    (h : position p l = some i) : ∃ hi : i < l.length, p (l.get ⟨i, hi⟩) = true := by
  induction l generalizing i with
  | nil => simp [position] at h
  | cons v rest ih =>
      rw [show position p (v :: rest)
            = if p v then some 0 else (position p rest).map (· + 1) from rfl] at h
      by_cases hv : p v
      · rw [if_pos hv, Option.some_inj] at h
        subst h
        exact ⟨by simp, by simpa using hv⟩
      · rw [if_neg hv] at h
        cases hrest : position p rest with
        | none => rw [hrest] at h; simp at h
        | some j =>
            rw [hrest, Option.map_some', Option.some_inj] at h
            subst h
            obtain ⟨hjl, hp⟩ := ih j hrest
            exact ⟨by simpa using hjl, by simpa using hp⟩

/-! ## Rehash and resize lemmas -/

theorem rehashAll_length (hash : T → Nat) (cap : Nat) (vs : List T) (bs : List (List T)) :
    (rehashAll hash cap vs bs).length = bs.length := by
  induction vs generalizing bs with
  | nil => rfl
  | cons v vs ih => simpa [rehashAll, pushAt] using ih (bs.set (hash v % cap) _)

theorem rehashAll_getD (hash : T → Nat) (cap : Nat) (vs : List T) (bs : List (List T))
    (hlen : bs.length = cap) (hpos : 0 < cap) (i : Nat) :
    (rehashAll hash cap vs bs).getD i []
      = bs.getD i [] ++ vs.filter (fun v => hash v % cap == i) := by
  induction vs generalizing bs with
  | nil => simp [rehashAll]
  | cons v vs ih =>
      have hstep : rehashAll hash cap (v :: vs) bs
          = rehashAll hash cap vs (pushAt bs (hash v % cap) v) := rfl
      rw [hstep, ih (pushAt bs (hash v % cap) v) (by simpa [pushAt_length] using hlen)]
      by_cases hvi : hash v % cap = i
      · rw [hvi, getD_pushAt_self bs i v (by rw [hlen, ← hvi]; exact Nat.mod_lt _ hpos)]
        simp [List.filter_cons, hvi]
      · rw [getD_pushAt_ne bs (hash v % cap) i v hvi]
        simp [List.filter_cons, hvi]

theorem rehashAll_flatten_perm (hash : T → Nat) (cap : Nat) (vs : List T)
    (bs : List (List T)) (hlen : bs.length = cap) (hpos : 0 < cap) :
    List.Perm (rehashAll hash cap vs bs).flatten (bs.flatten ++ vs) := by
  induction vs generalizing bs with
  | nil => simp [rehashAll]
  | cons v vs ih =>
      have hstep : rehashAll hash cap (v :: vs) bs
          = rehashAll hash cap vs (pushAt bs (hash v % cap) v) := rfl
      rw [hstep]
      have h1 := ih (pushAt bs (hash v % cap) v) (by simpa [pushAt_length] using hlen)
      have h2 : List.Perm (pushAt bs (hash v % cap) v).flatten (v :: bs.flatten) :=
        flatten_pushAt_perm bs _ v (by rw [hlen]; exact Nat.mod_lt _ hpos)
      exact (h1.trans (h2.append_right vs)).trans List.perm_middle.symm

theorem resize_capacity (hash : T → Nat) (s : HashSet T) :
    (s.resize hash).capacity = s.capacity * 2 := by
  simp [HashSet.resize, HashSet.capacity, rehashAll_length, create_buckets]

theorem resize_size (hash : T → Nat) (s : HashSet T) :
    (s.resize hash).size = s.size := rfl

theorem resize_getD (hash : T → Nat) (s : HashSet T) (h : 0 < s.buckets.length) (i : Nat) :
    (s.resize hash).buckets.getD i []
      = s.buckets.flatten.filter (fun v => hash v % (s.buckets.length * 2) == i) := by
  have := rehashAll_getD hash (s.buckets.length * 2) s.buckets.flatten
    (create_buckets T (s.buckets.length * 2)) (by simp [create_buckets]) (by omega) i
  simpa [HashSet.resize, create_buckets, getD_replicate_nil] using this

theorem resize_flatten_perm (hash : T → Nat) (s : HashSet T) (h : 0 < s.buckets.length) :
    List.Perm (s.resize hash).buckets.flatten s.buckets.flatten := by
  have := rehashAll_flatten_perm hash (s.buckets.length * 2) s.buckets.flatten
    (create_buckets T (s.buckets.length * 2)) (by simp [create_buckets]) (by omega)
  simpa [HashSet.resize, create_buckets] using this

/-! ## The table invariant -/

theorem contains_iff_mem_flatten [DecidableEq T] {hash : T → Nat} {s : HashSet T}
    (h : s.Inv hash) (v : T) :
    s.contains hash v = true ↔ v ∈ s.buckets.flatten := by
  obtain ⟨hpos, hidx, hnd, hsz⟩ := h
  constructor
  · intro hc
    simp only [HashSet.contains, List.any_eq_true, beq_iff_eq] at hc
    obtain ⟨w, hw, rfl⟩ := hc
    exact mem_getD_flatten hw
  · intro hv
    obtain ⟨i, hi, hvi⟩ := exists_getD_of_mem_flatten hv
    have hvidx : hash v % s.buckets.length = i := hidx i hi v hvi
    simp only [HashSet.contains, bucketIdx, List.any_eq_true, beq_iff_eq]
    exact ⟨v, by rw [hvidx]; exact hvi, rfl⟩

theorem inv_new [DecidableEq T] (hash : T → Nat) : (HashSet.new T).Inv hash := by
  refine ⟨by simp [HashSet.new, create_buckets], ?_, ?_, ?_⟩
  · intro i hi v hv
    rw [show (HashSet.new T).buckets = List.replicate 16 [] from rfl,
      getD_replicate_nil] at hv
    simp at hv
  · simp [HashSet.new, create_buckets]
  · simp [HashSet.new, create_buckets]

theorem inv_resize [DecidableEq T] {hash : T → Nat} {s : HashSet T} (h : s.Inv hash) :
    (s.resize hash).Inv hash := by
  obtain ⟨hpos, hidx, hnd, hsz⟩ := h
  have hlen : (s.resize hash).buckets.length = s.buckets.length * 2 := resize_capacity hash s
  have hperm := resize_flatten_perm hash s hpos
  refine ⟨by omega, ?_, ?_, ?_⟩
  · intro i hi v hv
    rw [resize_getD hash s hpos i] at hv
    have := List.of_mem_filter hv
    rw [hlen]
    exact beq_iff_eq.mp this
  · exact hperm.symm.nodup hnd
  · rw [resize_size, hsz]
    exact hperm.length_eq.symm

/-- Unfolding of `insert`: the duplicate scan after the optional resize is
exactly `contains` on the (possibly resized) table. -/
theorem insert_eq [DecidableEq T] (hash : T → Nat) (s : HashSet T) (v : T) :
    s.insert hash v
      = (let t := if (s.size + 1) * 4 > s.buckets.length * 3 then s.resize hash else s
         if t.contains hash v then (t, false)
         else ({ buckets := pushAt t.buckets (bucketIdx hash t v) v, size := t.size + 1 },
               true)) := rfl

/-- Unfolding of `remove` through `position`. -/
theorem remove_eq [DecidableEq T] (hash : T → Nat) (s : HashSet T) (v : T) :
    s.remove hash v
      = (match position (· == v) (s.buckets.getD (bucketIdx hash s v) []) with
         | some pos =>
             ({ buckets := s.buckets.set (bucketIdx hash s v)
                  ((s.buckets.getD (bucketIdx hash s v) []).eraseIdx pos),
                size := s.size - 1 }, true)
         | none => (s, false)) := rfl

theorem contains_eq_of_perm [DecidableEq T] {hash : T → Nat} {s t : HashSet T}
    (hs : s.Inv hash) (ht : t.Inv hash)
    (hperm : List.Perm s.buckets.flatten t.buckets.flatten) (v : T) :
    s.contains hash v = t.contains hash v := by
  rw [Bool.eq_iff_iff, contains_iff_mem_flatten hs v, contains_iff_mem_flatten ht v]
  exact hperm.mem_iff

/-- Everything `insert` does to a well-formed table: it keeps the invariant,
returns `true` exactly on new elements, adds exactly the new element to the
stored contents, bumps `size` only for new elements, and doubles the capacity
exactly when the growth trigger fires. -/
theorem insert_spec [DecidableEq T] {hash : T → Nat} {s : HashSet T} (h : s.Inv hash) (v : T) :
    (s.insert hash v).1.Inv hash ∧
    (s.insert hash v).2 = !(s.contains hash v) ∧
    List.Perm (s.insert hash v).1.buckets.flatten
      (if s.contains hash v then s.buckets.flatten else v :: s.buckets.flatten) ∧
    (s.insert hash v).1.size = (if s.contains hash v then s.size else s.size + 1) ∧
    (s.insert hash v).1.capacity
      = (if (s.size + 1) * 4 > s.capacity * 3 then s.capacity * 2 else s.capacity) := by
  rw [insert_eq]
  set t := if (s.size + 1) * 4 > s.buckets.length * 3 then s.resize hash else s with hts
  have hinvt : t.Inv hash := by
    rw [hts]; split
    · exact inv_resize h
    · exact h
  have hpermt : List.Perm t.buckets.flatten s.buckets.flatten := by
    rw [hts]; split
    · exact resize_flatten_perm hash s h.1
    · exact List.Perm.refl _
  have hsizet : t.size = s.size := by
    rw [hts]; split
    · exact resize_size hash s
    · rfl
  have hcapt : t.capacity
      = (if (s.size + 1) * 4 > s.capacity * 3 then s.capacity * 2 else s.capacity) := by
    rw [hts]
    by_cases htr : (s.size + 1) * 4 > s.buckets.length * 3
    · rw [if_pos htr, if_pos (by simpa [HashSet.capacity] using htr)]
      exact resize_capacity hash s
    · rw [if_neg htr, if_neg (by simpa [HashSet.capacity] using htr)]
  have hct : t.contains hash v = s.contains hash v :=
    contains_eq_of_perm hinvt h hpermt v
  by_cases hc : t.contains hash v = true
  · rw [if_pos hc]
    rw [hct] at hc
    exact ⟨hinvt, by simp [hc], by rw [if_pos hc]; exact hpermt,
      by rw [if_pos hc]; exact hsizet, hcapt⟩
  · rw [if_neg hc]
    rw [hct] at hc
    have hc' : s.contains hash v = false := by simpa using hc
    have hposl : 0 < t.buckets.length := hinvt.1
    have hidxlt : bucketIdx hash t v < t.buckets.length := Nat.mod_lt _ hposl
    have hvnotin : v ∉ t.buckets.flatten := by
      intro hv
      have htv := (contains_iff_mem_flatten hinvt v).2 hv
      rw [hct, hc'] at htv
      exact Bool.false_ne_true htv
    have hpush : List.Perm (pushAt t.buckets (bucketIdx hash t v) v).flatten
        (v :: t.buckets.flatten) := flatten_pushAt_perm t.buckets _ v hidxlt
    refine ⟨⟨?_, ?_, ?_, ?_⟩, by simp [hc'], ?_, ?_, ?_⟩
    · simpa [pushAt_length] using hposl
    · intro i hi w hw
      rw [pushAt_length] at hi
      simp only [pushAt_length]
      by_cases hii : bucketIdx hash t v = i
      · rw [← hii] at hw hi ⊢
        rw [getD_pushAt_self t.buckets _ v hi, List.concat_eq_append] at hw
        rcases List.mem_append.1 hw with hwb | hwv
        · exact hinvt.2.1 _ hi w hwb
        · rw [List.mem_singleton.1 hwv]
          rfl
      · rw [getD_pushAt_ne t.buckets _ i v hii] at hw
        exact hinvt.2.1 i hi w hw
    · exact hpush.symm.nodup (List.nodup_cons.2 ⟨hvnotin, hinvt.2.2.1⟩)
    · simp only
      rw [hpush.length_eq]
      simp [hinvt.2.2.2]
    · rw [if_neg (by simp [hc'])]
      exact hpush.trans (hpermt.cons v)
    · rw [if_neg (by simp [hc'])]
      simp [hsizet]
    · simpa [HashSet.capacity, pushAt_length] using hcapt

/-- Everything `remove` does to a well-formed table: it keeps the invariant,
returns `true` exactly on present elements, is the identity on absent ones,
decrements `size` by exactly one on present ones (after which the element is
gone), and never changes the capacity. -/
theorem remove_spec [DecidableEq T] {hash : T → Nat} {s : HashSet T} (h : s.Inv hash) (v : T) :
    (s.remove hash v).1.Inv hash ∧
    (s.remove hash v).2 = s.contains hash v ∧
    (s.contains hash v = false → (s.remove hash v).1 = s) ∧
    (s.contains hash v = true →
      (s.remove hash v).1.size + 1 = s.size ∧ (s.remove hash v).1.contains hash v = false) ∧
    (s.remove hash v).1.capacity = s.capacity := by
  obtain ⟨hpos, hidx, hnd, hsz⟩ := h
  set idx := bucketIdx hash s v with hidxdef
  set bucket := s.buckets.getD idx [] with hbdef
  cases hfind : position (· == v) bucket with
  | none =>
      have hre : s.remove hash v = (s, false) := by
        rw [remove_eq, ← hidxdef, ← hbdef, hfind]
      have hnomem : ∀ x ∈ bucket, ¬ (x == v) = true := (position_eq_none_iff _ bucket).1 hfind
      have hcf : s.contains hash v = false := by
        rw [HashSet.contains, ← hidxdef, ← hbdef]
        simp only [List.any_eq_false]
        exact fun x hx => hnomem x hx
      rw [hre]
      refine ⟨⟨hpos, hidx, hnd, hsz⟩, ?_, ?_, ?_, ?_⟩
      · simp [hcf]
      · intro _
        rfl
      · intro hct
        rw [hcf] at hct
        exact Bool.noConfusion hct
      · rfl
  | some pos =>
      obtain ⟨hplt, hpv⟩ := position_some _ bucket pos hfind
      have hgetel : bucket[pos] = v := by simpa using hpv
      have hre : s.remove hash v
          = (⟨s.buckets.set idx (bucket.eraseIdx pos), s.size - 1⟩, true) := by
        rw [remove_eq, ← hidxdef, ← hbdef, hfind]
      have hbne : bucket ≠ [] := by
        intro hb
        rw [hb] at hplt
        simp at hplt
      have hilt : idx < s.buckets.length := lt_length_of_getD_ne_nil hbne
      have hvmem : v ∈ bucket := hgetel ▸ List.getElem_mem hplt
      have hct : s.contains hash v = true := by
        rw [HashSet.contains, ← hidxdef, ← hbdef]
        simp only [List.any_eq_true, beq_iff_eq]
        exact ⟨v, hvmem, rfl⟩
      have hbnd : bucket.Nodup := by
        have hbeq : bucket = s.buckets[idx] := by
          rw [hbdef, List.getD_eq_getElem?_getD, List.getElem?_eq_getElem hilt]
          rfl
        have hbmem : bucket ∈ s.buckets := by
          rw [hbeq]
          exact List.getElem_mem hilt
        exact (List.nodup_flatten.1 hnd).1 bucket hbmem
      have hsub : List.Sublist (bucket.eraseIdx pos) bucket := List.eraseIdx_sublist bucket pos
      have hvnot : v ∉ bucket.eraseIdx pos := by
        have hdecomp : bucket = bucket.take pos ++ v :: bucket.drop (pos + 1) := by
          conv_lhs => rw [← List.take_append_drop pos bucket]
          rw [List.drop_eq_getElem_cons hplt, hgetel]
        rw [List.eraseIdx_eq_take_drop_succ]
        intro hvin
        have hnd2 : (bucket.take pos ++ v :: bucket.drop (pos + 1)).Nodup := hdecomp ▸ hbnd
        exact (List.nodup_cons.1 (List.nodup_middle.1 hnd2)).1 hvin
      have hflsub : List.Sublist (s.buckets.set idx (bucket.eraseIdx pos)).flatten
          s.buckets.flatten := flatten_set_sublist s.buckets idx _ (hbdef ▸ hsub)
      have herlen : (bucket.eraseIdx pos).length + 1 = bucket.length :=
        List.length_eraseIdx_add_one hplt
      have hflen := flatten_set_length s.buckets idx (bucket.eraseIdx pos) hilt
      rw [← hbdef] at hflen
      rw [hre]
      refine ⟨⟨?_, ?_, ?_, ?_⟩, ?_, ?_, ?_, ?_⟩
      · show 0 < (s.buckets.set idx (bucket.eraseIdx pos)).length
        simpa [List.length_set] using hpos
      · show ∀ i, i < (s.buckets.set idx (bucket.eraseIdx pos)).length →
          ∀ w ∈ (s.buckets.set idx (bucket.eraseIdx pos)).getD i [],
            hash w % (s.buckets.set idx (bucket.eraseIdx pos)).length = i
        intro i hi w hw
        rw [List.length_set] at hi
        simp only [List.length_set]
        by_cases hii : idx = i
        · rw [← hii] at hw hi ⊢
          rw [getD_set_self s.buckets idx _ hi] at hw
          exact hidx idx hi w (hsub.subset (hbdef ▸ hw))
        · rw [getD_set_ne s.buckets idx i _ hii] at hw
          exact hidx i hi w hw
      · exact hflsub.nodup hnd
      · show s.size - 1 = (s.buckets.set idx (bucket.eraseIdx pos)).flatten.length
        omega
      · simp [hct]
      · intro hcf
        rw [hct] at hcf
        exact Bool.noConfusion hcf
      · intro _
        constructor
        · show s.size - 1 + 1 = s.size
          omega
        · show HashSet.contains hash
            (⟨s.buckets.set idx (bucket.eraseIdx pos), s.size - 1⟩ : HashSet T) v = false
          rw [show HashSet.contains hash
              (⟨s.buckets.set idx (bucket.eraseIdx pos), s.size - 1⟩ : HashSet T) v
              = ((s.buckets.set idx (bucket.eraseIdx pos)).getD
                  (hash v % (s.buckets.set idx (bucket.eraseIdx pos)).length) []).any
                  (· == v) from rfl]
          have hbidx : hash v % (s.buckets.set idx (bucket.eraseIdx pos)).length = idx := by
            rw [List.length_set, hidxdef]
            rfl
          rw [hbidx, getD_set_self s.buckets idx _ hilt]
          simp only [List.any_eq_false, beq_iff_eq]
          intro x hx hxv
          exact hvnot (hxv ▸ hx)
      · show (s.buckets.set idx (bucket.eraseIdx pos)).length = s.buckets.length
        exact List.length_set s.buckets idx _

/-! ## Clear, and hypothesis-free operation facts -/

theorem getD_map_const_nil (bs : List (List T)) (i : Nat) :
    (bs.map (fun _ => ([] : List T))).getD i [] = [] := by
  rw [List.getD_eq_getElem?_getD, List.getElem?_map]
  cases bs[i]? <;> rfl

theorem flatten_map_const_nil (bs : List (List T)) :
    (bs.map (fun _ => ([] : List T))).flatten = [] := by
  induction bs with
  | nil => rfl
  | cons b bs ih => simpa using ih

theorem clear_capacity (s : HashSet T) : s.clear.capacity = s.capacity := by
  simp [HashSet.clear, HashSet.capacity]

theorem inv_clear [DecidableEq T] {hash : T → Nat} {s : HashSet T} (h : s.Inv hash) :
    s.clear.Inv hash := by
  refine ⟨by simpa [HashSet.clear] using h.1, ?_, ?_, ?_⟩
  · intro i hi w hw
    rw [show s.clear.buckets = s.buckets.map (fun _ => []) from rfl,
      getD_map_const_nil] at hw
    simp at hw
  · rw [show s.clear.buckets = s.buckets.map (fun _ => []) from rfl, flatten_map_const_nil]
    exact List.nodup_nil
  · rw [show s.clear.buckets = s.buckets.map (fun _ => []) from rfl, flatten_map_const_nil]
    rfl

theorem contains_new [DecidableEq T] (hash : T → Nat) (v : T) :
    (HashSet.new T).contains hash v = false := by
  rw [HashSet.contains,
    show (HashSet.new T).buckets = List.replicate 16 [] from rfl, getD_replicate_nil]
  rfl

/-- `insert` really does leave the inserted value reachable by `contains`,
for any table with a nonzero bucket count (no further invariant needed). -/
theorem contains_insert_self [DecidableEq T] (hash : T → Nat) (s : HashSet T) (v : T)
    (hpos : 0 < s.buckets.length) :
    (s.insert hash v).1.contains hash v = true := by
  rw [insert_eq]
  set t := if (s.size + 1) * 4 > s.buckets.length * 3 then s.resize hash else s with hts
  have hpost : 0 < t.buckets.length := by
    rw [hts]
    split
    · have := resize_capacity hash s
      simp only [HashSet.capacity] at this
      omega
    · exact hpos
  by_cases hc : t.contains hash v = true
  · simpa [hc] using hc
  · rw [if_neg hc]
    simp only
    rw [show HashSet.contains hash
        (⟨pushAt t.buckets (bucketIdx hash t v) v, t.size + 1⟩ : HashSet T) v
        = ((pushAt t.buckets (bucketIdx hash t v) v).getD
            (hash v % (pushAt t.buckets (bucketIdx hash t v) v).length) []).any
            (· == v) from rfl,
      pushAt_length,
      show hash v % t.buckets.length = bucketIdx hash t v from rfl,
      getD_pushAt_self t.buckets (bucketIdx hash t v) v (Nat.mod_lt _ hpost)]
    simp

theorem insert_capacity [DecidableEq T] (hash : T → Nat) (s : HashSet T) (v : T) :
    (s.insert hash v).1.capacity
      = if (s.size + 1) * 4 > s.capacity * 3 then s.capacity * 2 else s.capacity := by
  rw [insert_eq]
  set t := if (s.size + 1) * 4 > s.buckets.length * 3 then s.resize hash else s with hts
  have hcapt : t.capacity
      = if (s.size + 1) * 4 > s.capacity * 3 then s.capacity * 2 else s.capacity := by
    rw [hts]
    by_cases htr : (s.size + 1) * 4 > s.buckets.length * 3
    · rw [if_pos htr, if_pos (by simpa [HashSet.capacity] using htr)]
      exact resize_capacity hash s
    · rw [if_neg htr, if_neg (by simpa [HashSet.capacity] using htr)]
  by_cases hc : t.contains hash v = true
  · rw [if_pos hc]
    exact hcapt
  · rw [if_neg hc]
    simpa [HashSet.capacity, pushAt_length] using hcapt

theorem remove_capacity [DecidableEq T] (hash : T → Nat) (s : HashSet T) (v : T) :
    (s.remove hash v).1.capacity = s.capacity := by
  rw [remove_eq]
  cases hfind : position (· == v) (s.buckets.getD (bucketIdx hash s v) []) with
  | none => rfl
  | some pos => simp [HashSet.capacity]

/-! ## Reachable states -/

/-- Every reachable state satisfies the invariant. -/
theorem reachable_inv [DecidableEq T] {hash : T → Nat} {s : HashSet T}
    (h : Reachable hash s) : s.Inv hash := by
  induction h with
  | new => exact inv_new hash
  | insert s v _ ih => exact (insert_spec ih v).1
  | remove s v _ ih => exact (remove_spec ih v).1
  | clear s _ ih => exact inv_clear ih

/-- Every reachable state has capacity `16 * 2 ^ k` for some `k`. -/
theorem reachable_capacity_pow [DecidableEq T] {hash : T → Nat} {s : HashSet T}
    (h : Reachable hash s) : ∃ k, s.capacity = 16 * 2 ^ k := by
  induction h with
  | new => exact ⟨0, rfl⟩
  | insert s v _ ih =>
      obtain ⟨k, hk⟩ := ih
      rw [insert_capacity hash s v]
      by_cases htr : (s.size + 1) * 4 > s.capacity * 3
      · exact ⟨k + 1, by rw [if_pos htr, hk]; ring⟩
      · exact ⟨k, by rw [if_neg htr, hk]⟩
  | remove s v _ ih => rwa [remove_capacity hash s v]
  | clear s _ ih => rwa [clear_capacity s]

theorem reachable_foldl_insert [DecidableEq T] (hash : T → Nat) (l : List T)
    {s : HashSet T} (h : Reachable hash s) :
    Reachable hash (l.foldl (fun s item => (s.insert hash item).1) s) := by
  induction l generalizing s with
  | nil => exact h
  | cons v l ih => exact ih (Reachable.insert s v h)

theorem reachable_from_iter [DecidableEq T] (hash : T → Nat) (l : List T) :
    Reachable hash (HashSet.from_iter hash l) :=
  reachable_foldl_insert hash l Reachable.new

/-! ## Iterator traversal -/

theorem toList_unfold (it : Iter T) :
    it.toList = (match it.next with
      | some (v, it') => v :: it'.toList
      | none => []) := by
  rw [Iter.toList]
  split
  all_goals rename_i heq
  all_goals rw [heq]

theorem next_cons (bs : List (List T)) (v : T) (rest : List T) :
    Iter.next ⟨bs, some (v :: rest)⟩ = some (v, ⟨bs, some rest⟩) := by
  cases bs <;> rfl

/-- `Iter.toList` is the current bucket remainder followed by the flattening
of the not-yet-visited buckets: the traversal is bucket-array order, then
in-bucket order. -/
theorem toList_eq (it : Iter T) :
    it.toList = (it.current_bucket.getD []) ++ it.bucket_iter.flatten := by
  generalize hw : it.weight = n
  induction n using Nat.strong_induction_on generalizing it with
  | _ n ih =>
    obtain ⟨bs, cur⟩ := it
    match bs, cur with
    | bs, some (v :: rest) =>
        rw [toList_unfold, next_cons]
        show v :: Iter.toList ⟨bs, some rest⟩ = _
        have hlt : (⟨bs, some rest⟩ : Iter T).weight < n := by
          rw [← hw]
          simp [Iter.weight]
        rw [ih _ hlt ⟨bs, some rest⟩ rfl]
        simp
    | [], some [] =>
        rw [toList_unfold]
        rfl
    | [], none =>
        rw [toList_unfold]
        rfl
    | b :: bs, some [] =>
        rw [toList_unfold,
          show Iter.next ⟨b :: bs, some []⟩ = Iter.next ⟨bs, some b⟩ from rfl,
          ← toList_unfold]
        have hlt : (⟨bs, some b⟩ : Iter T).weight < n := by
          rw [← hw]
          simp only [Iter.weight, List.length_cons, List.map_cons, List.sum_cons]
          omega
        rw [ih _ hlt ⟨bs, some b⟩ rfl]
        simp
    | b :: bs, none =>
        rw [toList_unfold,
          show Iter.next ⟨b :: bs, none⟩ = Iter.next ⟨bs, some b⟩ from rfl,
          ← toList_unfold]
        have hlt : (⟨bs, some b⟩ : Iter T).weight < n := by
          rw [← hw]
          simp only [Iter.weight, List.length_cons, List.map_cons, List.sum_cons]
          omega
        rw [ih _ hlt ⟨bs, some b⟩ rfl]
        simp

/-- Collecting `iter()` yields the buckets flattened in array order. -/
theorem iter_toList (s : HashSet T) : s.iter.toList = s.buckets.flatten := by
  obtain ⟨bs, size⟩ := s
  cases bs with
  | nil =>
      show Iter.toList ⟨[], none⟩ = List.flatten []
      rw [toList_eq]
      rfl
  | cons b rest =>
      show Iter.toList ⟨rest, some b⟩ = List.flatten (b :: rest)
      rw [toList_eq]
      rfl

/-! ## Construct-from-sequence -/

theorem from_iter_append [DecidableEq T] (hash : T → Nat) (l : List T) (v : T) :
    HashSet.from_iter hash (l ++ [v]) = ((HashSet.from_iter hash l).insert hash v).1 := by
  rw [HashSet.from_iter, HashSet.from_iter, List.foldl_append]
  rfl

theorem contains_insert_other [DecidableEq T] {hash : T → Nat} {s : HashSet T}
    (hinv : s.Inv hash) {x v : T} (hne : x ≠ v) :
    (s.insert hash v).1.contains hash x = s.contains hash x := by
  have hspec := insert_spec hinv v
  rw [Bool.eq_iff_iff, contains_iff_mem_flatten hspec.1 x, contains_iff_mem_flatten hinv x,
    (hspec.2.2.1).mem_iff]
  by_cases hc : s.contains hash v = true
  · rw [if_pos hc]
  · rw [if_neg hc]
    simp [hne]

/-- `contains` after building from a list holds exactly for the list members. -/
theorem contains_from_iter [DecidableEq T] (hash : T → Nat) (l : List T) :
    ∀ v : T, (HashSet.from_iter hash l).contains hash v = true ↔ v ∈ l := by
  induction l using List.reverseRecOn with
  | nil =>
      intro v
      rw [show HashSet.from_iter hash ([] : List T) = HashSet.new T from rfl, contains_new]
      simp
  | append_singleton l w ih =>
      intro v
      rw [from_iter_append]
      have hinv : (HashSet.from_iter hash l).Inv hash :=
        reachable_inv (reachable_from_iter hash l)
      have hspec := insert_spec hinv w
      rw [contains_iff_mem_flatten hspec.1 v, (hspec.2.2.1).mem_iff]
      have ihv := ih v
      rw [contains_iff_mem_flatten hinv v] at ihv
      by_cases hcw : (HashSet.from_iter hash l).contains hash w = true
      · rw [if_pos hcw]
        have hwl : w ∈ l := (ih w).1 hcw
        rw [ihv]
        constructor
        · intro hv
          exact List.mem_append.2 (Or.inl hv)
        · intro hv
          rcases List.mem_append.1 hv with hv | hv
          · exact hv
          · rw [List.mem_singleton.1 hv]
            exact hwl
      · rw [if_neg hcw]
        rw [List.mem_cons, ihv]
        constructor
        · rintro (rfl | hv)
          · exact List.mem_append.2 (Or.inr (List.mem_singleton.2 rfl))
          · exact List.mem_append.2 (Or.inl hv)
        · intro hv
          rcases List.mem_append.1 hv with hv | hv
          · exact Or.inr hv
          · exact Or.inl (List.mem_singleton.1 hv)

/-- `len` after building from a list is the number of distinct list members. -/
theorem len_from_iter [DecidableEq T] (hash : T → Nat) (l : List T) :
    (HashSet.from_iter hash l).len = l.toFinset.card := by
  induction l using List.reverseRecOn with
  | nil => rfl
  | append_singleton l w ih =>
      rw [from_iter_append]
      have hinv : (HashSet.from_iter hash l).Inv hash :=
        reachable_inv (reachable_from_iter hash l)
      have hspec := insert_spec hinv w
      have hsize := hspec.2.2.2.1
      have htf : (l ++ [w]).toFinset = insert w l.toFinset := by
        ext a
        rw [List.mem_toFinset, Finset.mem_insert, List.mem_toFinset, List.mem_append,
          List.mem_singleton]
        exact Or.comm
      rw [HashSet.len, hsize, htf]
      by_cases hwl : w ∈ l
      · rw [if_pos ((contains_from_iter hash l w).2 hwl),
          Finset.insert_eq_self.2 (List.mem_toFinset.2 hwl)]
        exact ih
      · rw [if_neg (by
            intro hc
            exact hwl ((contains_from_iter hash l w).1 hc)),
          Finset.card_insert_of_not_mem (fun hmem => hwl (List.mem_toFinset.1 hmem))]
        rw [show (HashSet.from_iter hash l).size = (HashSet.from_iter hash l).len from rfl, ih]

/-! ## The claims -/

set_option maxRecDepth 1000000 in
/-- Claim C1, counterexample: in a reachable capacity-16 table holding the 12
elements 0..11 (identity hash), inserting the already-present value 5 returns
`false` yet doubles the capacity from 16 to 32 — the table is not left
unchanged, because `insert` checks the growth trigger before the duplicate
scan. -/
theorem C1_counterexample :
    (HashSet.from_iter (fun n : Nat => n) (List.range 12)).contains (fun n => n) 5 = true ∧
    ((HashSet.from_iter (fun n : Nat => n) (List.range 12)).insert (fun n => n) 5).2 = false ∧
    (HashSet.from_iter (fun n : Nat => n) (List.range 12)).capacity = 16 ∧
    ((HashSet.from_iter (fun n : Nat => n) (List.range 12)).insert
        (fun n => n) 5).1.capacity = 32 := by
  refine ⟨by decide, by decide, by decide, by decide⟩

/-- Claim C1 (amended): inserting an already-present value returns `false`
and leaves `len` unchanged; the table as a whole (capacity and buckets
included) is unchanged whenever the growth trigger `(size+1)*4 > capacity*3`
does not fire, but a triggered insert resizes even for a duplicate. -/
theorem C1_duplicate_insert [DecidableEq T] (hash : T → Nat) (s : HashSet T) (v : T)
    (h : s.contains hash v = true) :
    (s.insert hash v).2 = false ∧
    (s.insert hash v).1.len = s.len ∧
    ((s.size + 1) * 4 ≤ s.buckets.length * 3 → (s.insert hash v).1 = s) := by
  have hmem : v ∈ s.buckets.getD (bucketIdx hash s v) [] := by
    rw [HashSet.contains] at h
    rcases List.any_eq_true.1 h with ⟨w, hw, hwv⟩
    exact beq_iff_eq.1 hwv ▸ hw
  rw [insert_eq]
  set t := if (s.size + 1) * 4 > s.buckets.length * 3 then s.resize hash else s with hts
  have hct : t.contains hash v = true := by
    rw [hts]
    by_cases htr : (s.size + 1) * 4 > s.buckets.length * 3
    · rw [if_pos htr]
      have hilt : bucketIdx hash s v < s.buckets.length :=
        lt_length_of_getD_ne_nil (fun he => by rw [he] at hmem; simp at hmem)
      have hpos : 0 < s.buckets.length := by omega
      rw [HashSet.contains]
      have hbidx : bucketIdx hash (s.resize hash) v = hash v % (s.buckets.length * 2) := by
        rw [bucketIdx]
        have hc2 : (s.resize hash).buckets.length = s.buckets.length * 2 :=
          resize_capacity hash s
        rw [hc2]
      rw [hbidx, resize_getD hash s hpos]
      simp only [List.any_eq_true, beq_iff_eq]
      exact ⟨v, List.mem_filter.2 ⟨mem_getD_flatten hmem, by simp⟩, rfl⟩
    · rw [if_neg htr]
      exact h
  rw [if_pos hct]
  refine ⟨rfl, ?_, ?_⟩
  · show t.size = s.size
    rw [hts]
    by_cases htr : (s.size + 1) * 4 > s.buckets.length * 3
    · rw [if_pos htr]
      exact resize_size hash s
    · rw [if_neg htr]
  · intro hle
    show t = s
    rw [hts, if_neg (by omega)]

set_option maxRecDepth 1000000 in
/-- Witness for C1 (amended), at the table built from `[1, 2, 3]` with the
identity hash and the duplicate insert of 2. -/
theorem C1_duplicate_insert_witness :
    ((HashSet.from_iter (fun n : Nat => n) [1, 2, 3]).insert (fun n => n) 2).2 = false ∧
    ((HashSet.from_iter (fun n : Nat => n) [1, 2, 3]).insert (fun n => n) 2).1.len
      = (HashSet.from_iter (fun n : Nat => n) [1, 2, 3]).len :=
  ⟨(C1_duplicate_insert (fun n => n) (HashSet.from_iter (fun n : Nat => n) [1, 2, 3]) 2
      (by decide)).1,
   (C1_duplicate_insert (fun n => n) (HashSet.from_iter (fun n : Nat => n) [1, 2, 3]) 2
      (by decide)).2.1⟩

/-- Claim C2: every reachable table state keeps each stored element in exactly
the bucket at index `hash(e) mod capacity`, stores no element twice anywhere,
and has `size` equal to the sum of all bucket lengths. -/
theorem C2_invariants [DecidableEq T] (hash : T → Nat) (s : HashSet T)
    (h : Reachable hash s) :
    (∀ i, i < s.buckets.length →
      ∀ v ∈ s.buckets.getD i [], hash v % s.buckets.length = i) ∧
    s.buckets.flatten.Nodup ∧
    s.size = (s.buckets.map List.length).sum := by
  obtain ⟨hpos, hidx, hnd, hsz⟩ := reachable_inv h
  exact ⟨hidx, hnd, by rw [hsz, List.length_flatten]⟩

set_option maxRecDepth 1000000 in
/-- Witness for C2, at the reachable table built from `[1, 2, 2, 3]`. -/
theorem C2_invariants_witness :
    (HashSet.from_iter (fun n : Nat => n) [1, 2, 2, 3]).buckets.flatten.Nodup ∧
    (HashSet.from_iter (fun n : Nat => n) [1, 2, 2, 3]).size
      = ((HashSet.from_iter (fun n : Nat => n) [1, 2, 2, 3]).buckets.map List.length).sum :=
  (C2_invariants (fun n => n) (HashSet.from_iter (fun n : Nat => n) [1, 2, 2, 3])
    (reachable_from_iter (fun n => n) [1, 2, 2, 3])).2

set_option maxRecDepth 1000000 in
/-- Claim C3, counterexample: inserting the duplicate 5 into the reachable
table holding 0..11 (size 12, capacity 16) returns `false` — the value does
not become a new element — yet the capacity doubles, refuting "capacity
changes only when the inserted value actually becomes a new element". -/
theorem C3_counterexample :
    ((HashSet.from_iter (fun n : Nat => n) (List.range 12)).insert (fun n => n) 5).2 = false ∧
    ((HashSet.from_iter (fun n : Nat => n) (List.range 12)).insert (fun n => n) 5).1.capacity
      = 2 * (HashSet.from_iter (fun n : Nat => n) (List.range 12)).capacity := by
  refine ⟨by decide, by decide⟩

/-- Claim C3 (amended): capacity never decreases; only `insert` changes it,
exactly doubling it, and precisely when the insert finds
`(size + 1) * 4 > capacity * 3` — whether or not the inserted value is new;
`remove` and `clear` preserve capacity; and on every reachable state the
capacity is `16 * 2 ^ k`, a power of two that is at least 16. -/
theorem C3_growth [DecidableEq T] (hash : T → Nat) (s : HashSet T) (v : T)
    (h : Reachable hash s) :
    ((s.insert hash v).1.capacity
        = if (s.size + 1) * 4 > s.capacity * 3 then s.capacity * 2 else s.capacity) ∧
    s.capacity ≤ (s.insert hash v).1.capacity ∧
    (s.remove hash v).1.capacity = s.capacity ∧
    s.clear.capacity = s.capacity ∧
    (∃ k, s.capacity = 16 * 2 ^ k) := by
  refine ⟨insert_capacity hash s v, ?_, remove_capacity hash s v, clear_capacity s,
    reachable_capacity_pow h⟩
  rw [insert_capacity hash s v]
  split
  · omega
  · exact Nat.le_refl _

/-- Witness for C3, at the fresh table over `Nat` with the identity hash. -/
theorem C3_growth_witness :
    (HashSet.new Nat).capacity ≤ ((HashSet.new Nat).insert (fun n : Nat => n) 0).1.capacity ∧
    (∃ k, (HashSet.new Nat).capacity = 16 * 2 ^ k) :=
  ⟨(C3_growth (fun n : Nat => n) (HashSet.new Nat) 0 Reachable.new).2.1,
   (C3_growth (fun n : Nat => n) (HashSet.new Nat) 0 Reachable.new).2.2.2.2⟩

set_option maxRecDepth 1000000 in
/-- Claim C4: building a table from any finite sequence (repeated `insert`
starting from `new`, which is what construct-from-sequence does) yields
`len` equal to the number of distinct values of the sequence, and `contains`
holds exactly for the sequence's values; in particular `[1, 2, 2, 3]` gives
`len = 3` with `contains` true for 1, 2 and 3. -/
theorem C4_set_semantics [DecidableEq T] (hash : T → Nat) (l : List T) :
    (HashSet.from_iter hash l).len = l.toFinset.card ∧
    (∀ v : T, (HashSet.from_iter hash l).contains hash v = true ↔ v ∈ l) ∧
    ((HashSet.from_iter (fun n : Nat => n) [1, 2, 2, 3]).len = 3 ∧
      ∀ v ∈ [1, 2, 2, 3],
        (HashSet.from_iter (fun n : Nat => n) [1, 2, 2, 3]).contains (fun n => n) v
          = true) := by
  refine ⟨len_from_iter hash l, contains_from_iter hash l, by decide, by decide⟩

set_option maxRecDepth 1000000 in
/-- Witness for C4, at the sequence `[1, 2, 2, 3]` with the identity hash. -/
theorem C4_set_semantics_witness :
    (HashSet.from_iter (fun n : Nat => n) [1, 2, 2, 3]).len
      = ([1, 2, 2, 3] : List Nat).toFinset.card ∧
    ((HashSet.from_iter (fun n : Nat => n) [1, 2, 2, 3]).contains (fun n => n) 2 = true ↔
      (2 : Nat) ∈ ([1, 2, 2, 3] : List Nat)) :=
  ⟨(C4_set_semantics (fun n : Nat => n) [1, 2, 2, 3]).1,
   (C4_set_semantics (fun n : Nat => n) [1, 2, 2, 3]).2.1 2⟩

set_option maxRecDepth 1000000 in
/-- Claim C5: after `insert(x)`, `contains(x)` is true; after `remove(x)`,
`contains(x)` is false; a never-inserted value is absent from a fresh table,
and inserting a different value does not change its membership; and the
concrete 20-sequential-integer scenario grows past capacity 16 with all 20
values present and `len = 20`. -/
theorem C5_insert_contains [DecidableEq T] (hash : T → Nat) (s : HashSet T) (v x : T)
    (h : Reachable hash s) :
    (s.insert hash v).1.contains hash v = true ∧
    (s.remove hash v).1.contains hash v = false ∧
    (HashSet.new T).contains hash x = false ∧
    (x ≠ v → (s.insert hash v).1.contains hash x = s.contains hash x) ∧
    (16 < (HashSet.from_iter (fun n : Nat => n) (List.range 20)).capacity ∧
      (HashSet.from_iter (fun n : Nat => n) (List.range 20)).len = 20 ∧
      ∀ w ∈ List.range 20,
        (HashSet.from_iter (fun n : Nat => n) (List.range 20)).contains (fun n => n) w
          = true) := by
  have hinv := reachable_inv h
  refine ⟨contains_insert_self hash s v hinv.1, ?_, contains_new hash x,
    fun hne => contains_insert_other hinv hne, by decide, by decide, by decide⟩
  have hrs := remove_spec hinv v
  by_cases hc : s.contains hash v = true
  · exact (hrs.2.2.2.1 hc).2
  · have hcf : s.contains hash v = false := by simpa using hc
    rw [hrs.2.2.1 hcf, hcf]

/-- Witness for C5, at the fresh table over `Nat`, inserting 7 and querying 3. -/
theorem C5_insert_contains_witness :
    ((HashSet.new Nat).insert (fun n : Nat => n) 7).1.contains (fun n => n) 7 = true ∧
    ((HashSet.new Nat).remove (fun n : Nat => n) 7).1.contains (fun n => n) 7 = false ∧
    (HashSet.new Nat).contains (fun n : Nat => n) 3 = false :=
  ⟨(C5_insert_contains (fun n : Nat => n) (HashSet.new Nat) 7 3 Reachable.new).1,
   (C5_insert_contains (fun n : Nat => n) (HashSet.new Nat) 7 3 Reachable.new).2.1,
   (C5_insert_contains (fun n : Nat => n) (HashSet.new Nat) 7 3 Reachable.new).2.2.1⟩

/-- Claim C6: on a reachable table, removing a present element returns `true`,
decrements `len` by exactly one and makes the element absent; removing an
absent element returns `false` and leaves the whole table unchanged; and
`remove` never changes the capacity. -/
theorem C6_remove [DecidableEq T] (hash : T → Nat) (s : HashSet T) (x : T)
    (h : Reachable hash s) :
    (s.contains hash x = true →
      (s.remove hash x).2 = true ∧ (s.remove hash x).1.len + 1 = s.len ∧
      (s.remove hash x).1.contains hash x = false) ∧
    (s.contains hash x = false →
      (s.remove hash x).2 = false ∧ (s.remove hash x).1 = s) ∧
    (s.remove hash x).1.capacity = s.capacity := by
  have hrs := remove_spec (reachable_inv h) x
  refine ⟨fun hct => ⟨by rw [hrs.2.1, hct], (hrs.2.2.2.1 hct).1, (hrs.2.2.2.1 hct).2⟩,
    fun hcf => ⟨by rw [hrs.2.1, hcf], hrs.2.2.1 hcf⟩, hrs.2.2.2.2⟩

set_option maxRecDepth 1000000 in
/-- Witness for C6, removing the present element 5 from the table built from
`[5]`. -/
theorem C6_remove_witness :
    ((HashSet.from_iter (fun n : Nat => n) [5]).remove (fun n => n) 5).2 = true ∧
    ((HashSet.from_iter (fun n : Nat => n) [5]).remove (fun n => n) 5).1.len + 1
      = (HashSet.from_iter (fun n : Nat => n) [5]).len ∧
    ((HashSet.from_iter (fun n : Nat => n) [5]).remove (fun n => n) 5).1.contains
      (fun n => n) 5 = false :=
  (C6_remove (fun n => n) (HashSet.from_iter (fun n : Nat => n) [5]) 5
    (reachable_from_iter (fun n => n) [5])).1 (by decide)

/-- Claim C7: on every reachable table, collecting `iter()` yields exactly the
buckets flattened in bucket-array order (within each bucket, stored order),
with no duplicates, and its members are exactly the stored elements. -/
theorem C7_iteration [DecidableEq T] (hash : T → Nat) (s : HashSet T)
    (h : Reachable hash s) :
    s.iter.toList = s.buckets.flatten ∧
    s.iter.toList.Nodup ∧
    (∀ v : T, v ∈ s.iter.toList ↔ ∃ b ∈ s.buckets, v ∈ b) := by
  have hinv := reachable_inv h
  refine ⟨iter_toList s, ?_, ?_⟩
  · rw [iter_toList s]
    exact hinv.2.2.1
  · intro v
    rw [iter_toList s, List.mem_flatten]

/-- Witness for C7, at the table built from `[1, 2, 3]`. -/
theorem C7_iteration_witness :
    (HashSet.from_iter (fun n : Nat => n) [1, 2, 3]).iter.toList
      = (HashSet.from_iter (fun n : Nat => n) [1, 2, 3]).buckets.flatten ∧
    (HashSet.from_iter (fun n : Nat => n) [1, 2, 3]).iter.toList.Nodup :=
  ⟨(C7_iteration (fun n => n) (HashSet.from_iter (fun n : Nat => n) [1, 2, 3])
      (reachable_from_iter (fun n => n) [1, 2, 3])).1,
   (C7_iteration (fun n => n) (HashSet.from_iter (fun n : Nat => n) [1, 2, 3])
      (reachable_from_iter (fun n => n) [1, 2, 3])).2.1⟩

/-- Claim C8: on every reachable table the capacity is nonzero, every bucket
index `hash(v) mod capacity` is strictly in bounds, and whenever `remove`
finds a match (`position` succeeds on the target bucket), `size` is at least
1, so the `size - 1` decrement cannot underflow; hence no operation reaches a
failure branch. -/
theorem C8_totality [DecidableEq T] (hash : T → Nat) (s : HashSet T)
    (h : Reachable hash s) :
    0 < s.capacity ∧
    (∀ v : T, bucketIdx hash s v < s.buckets.length) ∧
    (∀ v : T, ∀ pos : Nat,
      position (· == v) (s.buckets.getD (bucketIdx hash s v) []) = some pos →
        1 ≤ s.size) := by
  have hinv := reachable_inv h
  refine ⟨hinv.1, fun v => Nat.mod_lt _ hinv.1, ?_⟩
  intro v pos hpos
  obtain ⟨hplt, _⟩ := position_some _ _ pos hpos
  have hne : s.buckets.getD (bucketIdx hash s v) [] ≠ [] := by
    intro he
    rw [he] at hplt
    simp at hplt
  obtain ⟨w, hw⟩ : ∃ w, w ∈ s.buckets.getD (bucketIdx hash s v) [] := by
    cases hb : s.buckets.getD (bucketIdx hash s v) [] with
    | nil => exact absurd hb hne
    | cons a rest =>
        exact ⟨a, List.mem_cons_self a rest⟩
  have hwfl : w ∈ s.buckets.flatten := mem_getD_flatten hw
  have hlen : 1 ≤ s.buckets.flatten.length := by
    cases hfe : s.buckets.flatten with
    | nil => rw [hfe] at hwfl; simp at hwfl
    | cons a rest => simp [hfe]
  have hsz := hinv.2.2.2
  omega

set_option maxRecDepth 1000000 in
/-- Witness for C8, at the table built from `[7]`. -/
theorem C8_totality_witness :
    0 < (HashSet.from_iter (fun n : Nat => n) [7]).capacity ∧
    bucketIdx (fun n : Nat => n) (HashSet.from_iter (fun n : Nat => n) [7]) 7
      < (HashSet.from_iter (fun n : Nat => n) [7]).buckets.length :=
  ⟨(C8_totality (fun n => n) (HashSet.from_iter (fun n : Nat => n) [7])
      (reachable_from_iter (fun n => n) [7])).1,
   (C8_totality (fun n => n) (HashSet.from_iter (fun n : Nat => n) [7])
      (reachable_from_iter (fun n => n) [7])).2.1 7⟩

/-- Claim C9: after `clear()` the table reports `len = 0` and `is_empty`,
every bucket is empty, and the capacity equals its value before the call. -/
theorem C9_clear (s : HashSet T) :
    s.clear.len = 0 ∧ s.clear.is_empty = true ∧
    (∀ b ∈ s.clear.buckets, b = []) ∧ s.clear.capacity = s.capacity := by
  refine ⟨rfl, rfl, ?_, clear_capacity s⟩
  intro b hb
  rw [show s.clear.buckets = s.buckets.map (fun _ => []) from rfl] at hb
  obtain ⟨a, _, hfa⟩ := List.mem_map.1 hb
  exact hfa.symm

/-- Witness for C9, clearing the fresh table over `Nat`. -/
theorem C9_clear_witness :
    (HashSet.new Nat).clear.len = 0 ∧
    (HashSet.new Nat).clear.is_empty = true ∧
    (HashSet.new Nat).clear.capacity = (HashSet.new Nat).capacity :=
  ⟨(C9_clear (HashSet.new Nat)).1, (C9_clear (HashSet.new Nat)).2.1,
   (C9_clear (HashSet.new Nat)).2.2.2⟩

set_option maxRecDepth 1000000 in
/-- Claim C10, counterexample: with the identity hash, 0, 16 and 32 all land
in bucket 0 (in that stored order); removing 0 leaves the bucket `[16, 32]` —
the remaining elements keep their relative order, because `remove` uses
`Vec::remove` (an order-preserving shift removal), not a swap removal. -/
theorem C10_counterexample :
    (HashSet.from_iter (fun n : Nat => n) [0, 16, 32]).buckets.getD 0 [] = [0, 16, 32] ∧
    ((HashSet.from_iter (fun n : Nat => n) [0, 16, 32]).remove (fun n => n) 0).1.buckets.getD
      0 [] = [16, 32] := by
  refine ⟨by decide, by decide⟩

/-- Claim C10 (amended): `remove` deletes the matched element with an
order-preserving shift removal: when the first match is at `pos`, the target
bucket becomes `take pos ++ drop (pos + 1)` — a sublist of the old bucket, so
the remaining elements keep their relative order — and every other bucket is
untouched. -/
theorem C10_remove_order [DecidableEq T] (hash : T → Nat) (s : HashSet T) (v : T) (pos : Nat)
    (h : position (· == v) (s.buckets.getD (bucketIdx hash s v) []) = some pos) :
    (s.remove hash v).1.buckets.getD (bucketIdx hash s v) []
      = (s.buckets.getD (bucketIdx hash s v) []).take pos
        ++ (s.buckets.getD (bucketIdx hash s v) []).drop (pos + 1) ∧
    List.Sublist ((s.remove hash v).1.buckets.getD (bucketIdx hash s v) [])
      (s.buckets.getD (bucketIdx hash s v) []) ∧
    (∀ j, j ≠ bucketIdx hash s v →
      (s.remove hash v).1.buckets.getD j [] = s.buckets.getD j []) := by
  obtain ⟨hplt, _⟩ := position_some _ _ pos h
  have hne : s.buckets.getD (bucketIdx hash s v) [] ≠ [] := by
    intro he
    rw [he] at hplt
    simp at hplt
  have hilt : bucketIdx hash s v < s.buckets.length := lt_length_of_getD_ne_nil hne
  have hre : (s.remove hash v).1.buckets
      = s.buckets.set (bucketIdx hash s v)
          ((s.buckets.getD (bucketIdx hash s v) []).eraseIdx pos) := by
    rw [remove_eq, h]
  refine ⟨?_, ?_, ?_⟩
  · rw [hre, getD_set_self s.buckets _ _ hilt, List.eraseIdx_eq_take_drop_succ]
  · rw [hre, getD_set_self s.buckets _ _ hilt]
    exact List.eraseIdx_sublist _ pos
  · intro j hj
    rw [hre, getD_set_ne s.buckets _ j _ (Ne.symm hj)]

set_option maxRecDepth 1000000 in
/-- Witness for C10 (amended): removing 16 (found at position 1 of bucket 0)
from the table built from `[0, 16, 32]` leaves that bucket `[0, 32]`, the
order-preserving shift of the old bucket. -/
theorem C10_remove_order_witness :
    ((HashSet.from_iter (fun n : Nat => n) [0, 16, 32]).remove
        (fun n => n) 16).1.buckets.getD 0 [] = [0, 32] := by
  have hc := (C10_remove_order (fun n : Nat => n)
    (HashSet.from_iter (fun n : Nat => n) [0, 16, 32]) 16 1 (by decide)).1
  rw [show bucketIdx (fun n : Nat => n)
      (HashSet.from_iter (fun n : Nat => n) [0, 16, 32]) 16 = 0 from by decide] at hc
  rw [hc]
  decide

end RustHashSet
